import Mathlib

/-!
Verification of pqRand (the precise quantile random package).

This file gives a shallow embedding of the core of the pqRand C++ library:
the xorshift1024* bit generator and its Jump() fast-forward, the state-string
codec, the precision engine (uneven uniform draws, the RandBool bit cache,
ApplyRandomSign), and the parameter checks and sampling decisions of the
distribution layer.  Machine words (`uint64_t`) are modelled as natural
numbers reduced modulo `2^64` exactly where the C++ semantics wraps, and
`double` values are modelled as exact rationals, with the one rounding step
that the algorithms rely on (conversion of a 64-bit integer to `double`,
round-to-nearest-even at 53 significant bits) made explicit.

The embedding follows the newest snapshot of the sources
(`src/include/pqRand.hpp`, `src/include/distributions.hpp`, and the
distribution implementation in `src/unnamed/part_001`, all with
`badBits = 2`); where a claim cites a routine whose body lives in an
older snapshot (`src/source/pqRand.cpp`), the translated body is
identical up to the named constants and the doc comment says so.
-/

namespace PqRand

/-- the modulus of 64-bit machine words -/
def W : ℕ := 2 ^ 64

/-- the xorshift1024* output multiplier (an odd 64-bit constant) -/
def MULT : ℕ := 1181783497276652981

/-- the word-update of `xorshift1024_star::operator()`
(`src/source/pqRand.cpp` lines 109-120): given `s0 = state[p]` and
`s1 = state[(p+1) & 15]`, compute `s1 ^= s1 << 31; s1 = s1 ^ s0 ^ (s1 >> 11)
^ (s0 >> 30)`.  The left shift wraps modulo `2^64`. -/
def nextWord (s0 s1 : ℕ) : ℕ :=
  let a := s1 ^^^ ((s1 <<< 31) % W)
  a ^^^ s0 ^^^ (a >>> 11) ^^^ (s0 >>> 30)

/-- index into the 16-word state array; the source guards every computed
index with `& 15`, and the bare reads `state[p]` rely on the invariant
`p < 16` (under which `idx p = p`) -/
def idx (n : ℕ) : Fin 16 := ⟨n &&& 15, Nat.lt_succ_of_le Nat.and_le_right⟩

/-- the state of `pqRand::xorshift1024_star`: sixteen 64-bit words plus the
rotation counter `p` -/
structure XGen where
  state : Fin 16 → ℕ
  p : ℕ

/-- the state transition of `xorshift1024_star::operator()`
(`src/source/pqRand.cpp` lines 109-120): advance `p` by `(p + 1) & 15` and
overwrite the word at the new `p` with `nextWord` of the two active words -/
def step (g : XGen) : XGen :=
  let p' := (g.p + 1) &&& 15
  let s0 := g.state (idx g.p)
  let s1 := g.state (idx p')
  { state := Function.update g.state (idx p') (nextWord s0 s1), p := p' }

/-- one full call of `xorshift1024_star::operator()`: the updated state and
the returned word `s1 * 1181783497276652981` (wrapping) -/
def callGen (g : XGen) : ℕ × XGen :=
  let g' := step g
  ((g'.state (idx g'.p) * MULT) % W, g')

/-- the precomputed 16-word JUMP polynomial table of
`pqRand::xorshift1024_star` (`src/source/pqRand.cpp` lines 103-107) -/
def JUMPtbl : ℕ → ℕ
  | 0 => 0x84242f96eca9c41d
  | 1 => 0xa3c65b8776f96855
  | 2 => 0x5b34a39f070b5837
  | 3 => 0x4489affce4f31a1e
  | 4 => 0x2ffeeb0a48316f40
  | 5 => 0xdc2d9891fe68c022
  | 6 => 0x3659132bb12fea70
  | 7 => 0xaac17d8efa43cab8
  | 8 => 0xc4cb815590989b13
  | 9 => 0x5ee975283d71c93b
  | 10 => 0x691548c86c1bd540
  | 11 => 0x7910c41d10a1e6a5
  | 12 => 0x0b5fc64563b3e2a8
  | 13 => 0x047f7684e9fc949d
  | 14 => 0xb99181f2d8f685ca
  | 15 => 0x284600e3f30e38c3
  | _ => 0

/-- bit `b` of `JUMP[i]` for the flattened loop counter `k = 64 * i + b`:
the test `JUMP[i] & 1ULL << b` of `Jump()` -/
def jumpBit (k : ℕ) : Bool := (JUMPtbl (k / 64)) &&& (1 <<< (k % 64)) != 0

/-- one iteration of the inner loop of `xorshift1024_star::Jump()`
(`src/source/pqRand.cpp` lines 125-135): if the current JUMP bit is set,
fold the current state (aligned to the current `p`) into the accumulator
`t`; then call the generator once -/
def jumpStep (gt : XGen × (Fin 16 → ℕ)) (k : ℕ) : XGen × (Fin 16 → ℕ) :=
  (step gt.1,
    if jumpBit k then (fun j => gt.2 j ^^^ gt.1.state (idx (j.val + gt.1.p))) else gt.2)

/-- inverse of the index alignment: the accumulator slot `j` whose
write-back target `(j + p) & 15` is `i` -/
def subIdx (i : Fin 16) (p : ℕ) : Fin 16 :=
  ⟨(i.val + 16 - p % 16) % 16, by omega⟩

/-- `xorshift1024_star::Jump()` (`src/source/pqRand.cpp` lines 122-140):
run the 16 x 64 bit loop, then copy the accumulator back into the state,
aligned to the final rotation `p` (`state[(j + p) & 15] = t[j]`) -/
def Jump (g : XGen) : XGen :=
  let r := (List.range (16 * 64)).foldl jumpStep (g, fun _ => 0)
  { state := fun i => r.2 (subIdx i r.1.p), p := r.1.p }

/-- the state as seen from rotation `p`: slot `j` holds `state[(j + p) & 15]` -/
def alignedSt (g : XGen) : Fin 16 → ℕ :=
  fun j => g.state (idx (j.val + g.p))

/-- the generator's state transition expressed in aligned coordinates -/
def stepT (a : Fin 16 → ℕ) : Fin 16 → ℕ :=
  fun j => if j = 0 then nextWord (a 0) (a 1) else a (j + 1)

/-- accumulator contents after `k` iterations of the Jump bit loop -/
def tAcc (g : XGen) : ℕ → Fin 16 → ℕ
  | 0 => fun _ => 0
  | k + 1 =>
    if jumpBit k then (fun j => tAcc g k j ^^^ alignedSt (step^[k] g) j) else tAcc g k

/-! State-string codec.

A state-string is a single line of whitespace-separated unsigned integers;
we model the token stream as a `List ℕ` and stream extraction as popping
the head.  `operator>>` (`src/source/pqRand.cpp` lines 171-198) throws
`std::runtime_error` on a malformed string; the `SeedErr` constructors name
the four throw sites of the generator parser and the one throw site of
`engine::Seed_FromStream` (lines 299-323). -/

inductive SeedErr where
  | tooFewWords
  | noStateSize
  | wrongStateSize
  | pTooLarge
  | missingCacheMask
  deriving DecidableEq

/-- read `n` words off the front of the token stream, or fail if the
stream runs out -/
def readN : ℕ → List ℕ → Option (List ℕ × List ℕ)
  | 0, ts => some ([], ts)
  | _ + 1, [] => none
  | n + 1, t :: ts => (readN n ts).map (fun r => (t :: r.1, r.2))

/-- the stream parser `operator>>(std::istream&, xorshift1024_star&)`
(`src/source/pqRand.cpp` lines 171-198): read 16 state words (error if the
stream runs out), then the word count (error if missing or not 16), then an
optional rotation index `p` (error only when `p > state_size`, i.e. the
source check `word > 16`; `p` defaults to 0 when absent).  Returns the
parsed state, the rotation index, and the unconsumed tokens. -/
def genFromTokens (toks : List ℕ) : Except SeedErr ((Fin 16 → ℕ) × ℕ × List ℕ) :=
  match readN 16 toks with
  | none => .error .tooFewWords
  | some (ws, rest) =>
    match rest with
    | [] => .error .noStateSize
    | n :: rest2 =>
      if n ≠ 16 then .error .wrongStateSize
      else
        match rest2 with
        | [] => .ok (fun i => ws.getD i 0, 0, [])
        | pv :: rest3 =>
          if pv > 16 then .error .pTooLarge
          else .ok (fun i => ws.getD i 0, pv, rest3)

/-- number of low generator bits the engine refuses to use
(`src/include/pqRand.hpp` line 665) -/
def badBits : ℕ := 2

/-- the sentinel cache-mask value that forces a refill,
`1 << (badBits - 1)` (`src/include/pqRand.hpp` line 691) -/
def replenishBitCache : ℕ := 1 <<< (badBits - 1)

/-- the serializable state of `pqRand::engine`: the generator state plus
`bitCache` and `cacheMask` -/
structure EngT where
  state : Fin 16 → ℕ
  p : ℕ
  bitCache : ℕ
  cacheMask : ℕ

/-- `pqRand::engine::Seed_FromStream` (`src/source/pqRand.cpp` lines
299-323): seed the generator from the stream, then read `bitCache` and
`cacheMask` if present (if `bitCache` is present, `cacheMask` must be too);
when absent, `DefaultInitializeBitCache` sets `cacheMask` to the refill
sentinel and leaves `bitCache` as it was -/
def engineFromTokens (oldBitCache : ℕ) (toks : List ℕ) : Except SeedErr EngT :=
  match genFromTokens toks with
  | .error e => .error e
  | .ok (st, pv, rest) =>
    match rest with
    | [] => .ok ⟨st, pv, oldBitCache, replenishBitCache⟩
    | [_] => .error .missingCacheMask
    | bc :: cm :: _ => .ok ⟨st, pv, bc, cm⟩

/-- `pqRand::engine::WriteState_ToStream` (`src/source/pqRand.cpp` lines
327-333) composed with `operator<<` (lines 153-164): the 16 state words,
the word count 16, the rotation `p`, then `bitCache` and `cacheMask` -/
def writeStateTokens (e : EngT) : List ℕ :=
  (List.ofFn e.state) ++ [16, e.p, e.bitCache, e.cacheMask]

/-- the generator portion of an engine -/
def toXGen (e : EngT) : XGen := ⟨e.state, e.p⟩

/-- the first `k` words returned by successive `operator()` calls -/
def genWords : ℕ → XGen → List ℕ
  | 0, _ => []
  | k + 1, g => (callGen g).1 :: genWords k (callGen g).2

/-- concrete engine state used to witness the serialization round trip -/
def engTW : EngT := ⟨fun i => i.val + 1, 3, 7, 9⟩

/-- concrete malformed-by-the-spec input for the parser: 16 state words,
the correct count 16, and the out-of-range rotation index `p = 16` -/
def c4Tokens : List ℕ :=
  [1, 2, 3, 4, 5, 6, 7, 8, 9, 10, 11, 12, 13, 14, 15, 16, 16, 16]

/-! The precision engine.

For the engine-level routines the underlying generator is abstracted as
the stream `ws` of words that its successive `operator()` calls return,
with `ptr` counting how many words have been drawn so far; this makes the
word consumption of every routine directly observable.  The constants are
those of `src/include/pqRand.hpp` (`badBits = 2`, `numBitsPRNG = 64`,
`numBitsMantissa = 53`). -/

/-- bits per generator word (`word_size` of `xorshift1024_star`) -/
def numBitsPRNG : ℕ := 64

/-- mantissa width of `real_t = double`
(`std::numeric_limits<double>::digits`) -/
def numBitsMantissa : ℕ := 53

/-- engine state: the output stream of the wrapped generator, the number
of words already drawn, and the boolean cache of `pqRand::engine` -/
structure Eng where
  ws : ℕ → ℕ
  ptr : ℕ
  bitCache : ℕ
  cacheMask : ℕ

/-- `pqRand::engine::RandBool` (`src/source/pqRand.cpp` lines 345-356):
when `cacheMask` holds the refill sentinel, draw a fresh word into
`bitCache` and reset `cacheMask` to the top bit; then test the masked bit
and shift the mask right by one -/
def RandBool (e : Eng) : Bool × Eng :=
  if e.cacheMask = replenishBitCache then
    let bitCache := e.ws e.ptr
    let cacheMask := 1 <<< (numBitsPRNG - 1)
    ((cacheMask &&& bitCache) != 0, ⟨e.ws, e.ptr + 1, bitCache, cacheMask >>> 1⟩)
  else
    ((e.cacheMask &&& e.bitCache) != 0, ⟨e.ws, e.ptr, e.bitCache, e.cacheMask >>> 1⟩)

/-- the engine state after `n` consecutive `RandBool` calls -/
def randBoolN : ℕ → Eng → Eng
  | 0, e => e
  | n + 1, e => randBoolN n (RandBool e).2

/-- the effect of one `RandBool` call on `cacheMask` alone (the mask
evolves independently of the cached bits) -/
def cacheStep (m : ℕ) : ℕ :=
  (if m = replenishBitCache then 1 <<< (numBitsPRNG - 1) else m) >>> 1

/-- number of fresh generator words consumed by `n` `RandBool` calls
starting from cache mask `m` -/
def refillCount : ℕ → ℕ → ℕ
  | 0, _ => 0
  | n + 1, m => (if m = replenishBitCache then 1 else 0) + refillCount n (cacheStep m)

/-- an engine whose boolean cache is empty (the state every freshly
seeded engine starts in, via `DefaultInitializeBitCache`) -/
def engEmptyCache : Eng := ⟨fun _ => 0, 0, 0, replenishBitCache⟩

/-- `pqRand::engine::ApplyRandomSign` (`src/include/pqRand.hpp` lines
772-776): `if(RandBool()) victim = -victim; return victim;` -/
def ApplyRandomSign (e : Eng) (victim : ℚ) : ℚ × Eng :=
  let r := RandBool e
  (if r.1 then -victim else victim, r.2)

/-- the per-sampler state of `pqRand::standard_normal`: one cached value
plus the `valueCached` flag -/
structure NormalState where
  cache : ℚ
  valueCached : Bool

/-- `pqRand::standard_normal::operator()` (`src/unnamed/part_001` lines
221-235): drain the cache if it is full; otherwise generate a pair with
the (virtual) two-value routine, return `pair.x` and cache `pair.y`.
The virtual `GetTwo` is passed as the function argument `genTwo`. -/
def standardNormalCall (genTwo : Eng → (ℚ × ℚ) × Eng) (d : NormalState) (e : Eng) :
    ℚ × NormalState × Eng :=
  if d.valueCached then (d.cache, ⟨d.cache, false⟩, e)
  else
    let r := genTwo e
    (r.1.1, ⟨r.1.2, true⟩, r.2)

/-- a concrete stand-in for the virtual `GetTwo`, used to witness the
caching protocol -/
def genTwoW : Eng → (ℚ × ℚ) × Eng := fun e => ((1, 2), e)

/-! The uneven (quasiuniform) uniform draw.

`double` values are modelled as exact rationals.  Every floating-point
operation the draw performs is exact in binary64 — multiplying by the
powers of two `scaleToU_uneven = exp2(-64)`, `exp2(-shiftLeft)` and their
products never rounds — except the conversion of the assembled 64-bit
mantissa to `double`, which rounds to nearest (ties to even) at 53
significant bits; `rnd53` makes exactly that rounding explicit.  The
constants are those of `src/include/pqRand.hpp` lines 665-703
(`badBits = 2`); the top-up body is translated from
`RandomMantissa_Quasiuniform` (`src/source/pqRand.cpp` lines 208-254),
the in-repository implementation of the `U_uneven_TopUpEntropy` helper
that `U_uneven` (`src/include/pqRand.hpp` lines 802-810) calls. -/

/-- mantissa width plus one buffer bit plus the sticky bit position
(`src/include/pqRand.hpp` lines 699-700): `53 + 1 + (badBits - 1) = 55` -/
def numBitsOfEntropyRequired : ℕ := numBitsMantissa + 1 + (badBits - 1)

/-- the entropy threshold `1 << (numBitsOfEntropyRequired - 1) = 2^54`
(`src/include/pqRand.hpp` lines 702-703) -/
def minEntropy : ℕ := 1 <<< (numBitsOfEntropyRequired - 1)

/-- the base scale `exp2(-numBitsPRNG) = 2^-64`
(`src/include/pqRand.hpp` lines 688-689), exact in binary64 -/
def scaleToU_uneven : ℚ := ((2 : ℚ) ^ numBitsPRNG)⁻¹

/-- round-to-nearest with ties-to-even of `n` at the unit `2^e`
(the helper of `rnd53`) -/
def rnd53aux (n e : ℕ) : ℕ :=
  if 2 * (n % 2 ^ e) < 2 ^ e then (n / 2 ^ e) * 2 ^ e
  else if 2 ^ e < 2 * (n % 2 ^ e) then (n / 2 ^ e + 1) * 2 ^ e
  else (if (n / 2 ^ e) % 2 = 0 then n / 2 ^ e else n / 2 ^ e + 1) * 2 ^ e

/-- conversion of an unsigned integer to `double` (the casts
`real_t(randUint | 1)` in the source): round to nearest, ties to even,
at `numBitsMantissa = 53` significant bits; exact whenever `n < 2^53` -/
def rnd53 (n : ℕ) : ℕ :=
  if n < 2 ^ numBitsMantissa then n
  else rnd53aux n (n.log2 - (numBitsMantissa - 1))

/-- the `while(randUint < minEntropy)` shift loop of the entropy top-up:
shift left until the leading bit reaches the position demanded by
`minEntropy`, returning the shifted value and the shift count.  The fuel
`numBitsPRNG = 64` suffices for every nonzero input; the shifts never
wrap because the loop only shifts values below `minEntropy = 2^54`. -/
def shiftLoop : ℕ → ℕ → ℕ × ℕ
  | 0, r => (r, 0)
  | fuel + 1, r =>
    if r < minEntropy then
      let s := shiftLoop fuel (r <<< 1)
      (s.1, s.2 + 1)
    else (r, 0)

/-- the entropy top-up branch of the uneven draw, translated from
`RandomMantissa_Quasiuniform` (`src/source/pqRand.cpp` lines 212-251).
`ws` is the stream of words the wrapped generator returns (`ws 0` is the
word the caller already drew), and `h` states that some later word is
nonzero — precisely the condition under which the
`while((randUint = (*this)()) == 0)` redraw loop terminates; it holds for
every non-all-zero generator state.  In the all-zero redraw path each
zero draw contributes one `scaleToU_Quasiuniform = 2^-64` downscale
factor and `randUint` becomes the first nonzero word; then the shift loop
raises the leading bit, one fresh draw refills the vacated low bits
(`(*this)() >> (numBitsPRNG - shiftLeft)`, a shift by 64 — undefined in
C++ — being modelled as yielding 0), the sticky bit is set, and the
result is downscaled. -/
def U_uneven_TopUp (ws : ℕ → ℕ) (h : ∃ i, 0 < i ∧ ws i ≠ 0) : ℚ :=
  if (ws 0 <<< 1) % W = 0 then
    let k := Nat.find h
    let s := shiftLoop numBitsPRNG (ws k)
    let downScale : ℚ := scaleToU_uneven ^ k * ((2 : ℚ)⁻¹) ^ s.2
    (rnd53 ((s.1 ||| (ws (k + 1) >>> (numBitsPRNG - s.2))) ||| 1) : ℚ) * downScale
  else
    let s := shiftLoop numBitsPRNG ((ws 0 <<< 1) % W)
    let shiftLeft := s.2 + 1
    (rnd53 ((s.1 ||| (ws 1 >>> (numBitsPRNG - shiftLeft))) ||| 1) : ℚ)
      * ((2 : ℚ)⁻¹) ^ shiftLeft

/-- `pqRand::engine::U_uneven` (`src/include/pqRand.hpp` lines 802-810):
draw one word; if it clears `minEntropy`, set the sticky bit and scale by
`2^-64`, otherwise top up the entropy first -/
def U_uneven (ws : ℕ → ℕ) (h : ∃ i, 0 < i ∧ ws i ≠ 0) : ℚ :=
  if ws 0 < minEntropy then scaleToU_uneven * U_uneven_TopUp ws h
  else scaleToU_uneven * (rnd53 (ws 0 ||| 1) : ℚ)

/-- constant word stream used to witness the uneven draw -/
def wsW : ℕ → ℕ := fun _ => 2 ^ 60

/-! The distribution layer (`src/unnamed/part_001`): the Marsaglia-polar
boundary decision of `standard_normal::GetTwo`, and the construction-time
parameter checks of `weibull`, `pareto` and `uniform_integer`. -/

/-- one pass of the Marsaglia-polar do-while body of
`standard_normal::GetTwo` (`src/unnamed/part_001` lines 249-264): with
the drawn coordinates `x`, `y` and the auxiliary draw `aux`
(`gen.U_even()`), compute `u = x*x + y*y`; when `u` equals 1 exactly and
`aux * 3 < 2`, set `u = 2` (the easy way to reject) -/
def polarBody (x y aux : ℚ) : ℚ :=
  let u := x * x + y * y
  if u = 1 ∧ aux * 3 < 2 then 2 else u

/-- whether the do-while loop `while(u > 1)` accepts the pair after one
pass of its body -/
def polarAccept (x y aux : ℚ) : Bool := !(decide (1 < polarBody x y aux))

/-- the construction-time check of `pqRand::weibull::weibull`
(`src/unnamed/part_001` lines 416-423).  The member initializer computes
`kRecip = real_t(1)/k` before the body runs; in IEEE arithmetic
`1.0/0.0` is `+inf`, modelled as `none`, for which the test
`kRecip <= 0` is false. -/
def weibull_throws (lam k : ℚ) : Bool :=
  decide (lam ≤ 0) ||
    (match (if k = 0 then none else some (1 / k)) with
      | none => false
      | some kRecip => decide (kRecip ≤ 0))

/-- the construction-time check of `pqRand::pareto::pareto`
(`src/unnamed/part_001` lines 483-491).  The initializer computes
`negRecipAlpha = -real_t(1)/alpha`; in IEEE arithmetic `-1.0/0.0` is
`-inf`, modelled as `none`, for which the test `negRecipAlpha >= 0` is
false. -/
def pareto_throws (xMin alpha : ℚ) : Bool :=
  decide (xMin ≤ 0) ||
    (match (if alpha = 0 then none else some (-1 / alpha)) with
      | none => false
      | some negRecipAlpha => decide (0 ≤ negRecipAlpha))

/-- the largest bit-reduced generator value,
`engine::max() >> badBits = 2^62 - 1` (`src/include/distributions.hpp`
lines 229-230) -/
def biggestRand : ℕ := (2 ^ 64 - 1) >>> badBits

/-- the spread `rand_t(max_ - min_)` of `uniform_integer<int64_t>`: the
two's-complement difference converted to `uint64_t` -/
def uiSpread (mn mx : ℤ) : ℕ := ((mx - mn) % (2 ^ 64 : ℤ)).toNat

/-- the construction-time check of `pqRand::uniform_integer`
(`src/unnamed/part_001` lines 44-62): throw when `max_ <= min_`, and
also when `spread > biggestRand` -/
def uniform_integer_throws (mn mx : ℤ) : Bool :=
  decide (mx ≤ mn) || decide (uiSpread mn mx > biggestRand)

theorem and15_eq (n : ℕ) : n &&& 15 = n % 16 := by
  have h := Nat.and_pow_two_sub_one_eq_mod n 4
  norm_num at h
  exact h

theorem idx_val (n : ℕ) : (idx n).val = n % 16 := and15_eq n

theorem idx_congr {a b : ℕ} (h : a % 16 = b % 16) : idx a = idx b := by
  apply Fin.ext
  rw [idx_val, idx_val, h]

theorem xor_shl (x y n : ℕ) : (x ^^^ y) <<< n = (x <<< n) ^^^ (y <<< n) := by
  apply Nat.eq_of_testBit_eq
  intro i
  simp only [Nat.testBit_shiftLeft, Nat.testBit_xor]
  cases h : decide (i ≥ n) <;> simp

theorem xor_shr (x y n : ℕ) : (x ^^^ y) >>> n = (x >>> n) ^^^ (y >>> n) := by
  apply Nat.eq_of_testBit_eq
  intro i
  simp [Nat.testBit_shiftRight, Nat.testBit_xor]

theorem xor_mod_two_pow (x y n : ℕ) : (x ^^^ y) % 2 ^ n = (x % 2 ^ n) ^^^ (y % 2 ^ n) := by
  apply Nat.eq_of_testBit_eq
  intro i
  simp only [Nat.testBit_mod_two_pow, Nat.testBit_xor]
  cases h : decide (i < n) <;> simp

theorem xor_mod_W (x y : ℕ) : (x ^^^ y) % W = (x % W) ^^^ (y % W) := by
  simp only [W]
  exact xor_mod_two_pow x y 64

theorem xor_left_comm (x y z : ℕ) : x ^^^ (y ^^^ z) = y ^^^ (x ^^^ z) := by
  rw [← Nat.xor_assoc, Nat.xor_comm x y, Nat.xor_assoc]

theorem nextWord_linear (x0 x1 y0 y1 : ℕ) :
    nextWord (x0 ^^^ y0) (x1 ^^^ y1) = nextWord x0 x1 ^^^ nextWord y0 y1 := by
  simp only [nextWord]
  rw [xor_shl, xor_mod_W]
  simp only [xor_shr]
  simp [Nat.xor_assoc, Nat.xor_comm, xor_left_comm]

theorem nextWord_zero : nextWord 0 0 = 0 := by decide

theorem step_p (g : XGen) : (step g).p = (g.p + 1) % 16 := by
  simp [step, and15_eq]

theorem aligned_step (g : XGen) : alignedSt (step g) = stepT (alignedSt g) := by
  funext j
  have hj := j.isLt
  by_cases h0 : j = 0
  · subst h0
    have hidx : idx ((0 : Fin 16).val + (step g).p) = idx ((g.p + 1) &&& 15) := by
      apply idx_congr
      rw [step_p, and15_eq]
      omega
    have hidx2 : idx ((g.p + 1) &&& 15) = idx ((1 : Fin 16).val + g.p) := by
      apply idx_congr
      rw [and15_eq]
      simp
      omega
    simp only [alignedSt, stepT, if_pos rfl]
    rw [hidx]
    show Function.update g.state (idx ((g.p + 1) &&& 15)) _ (idx ((g.p + 1) &&& 15)) = _
    rw [Function.update_same]
    congr 1
    · congr 1
      apply idx_congr
      omega
    · rw [hidx2]
  · simp only [alignedSt, stepT, if_neg h0]
    have hne : idx (j.val + (step g).p) ≠ idx ((g.p + 1) &&& 15) := by
      intro hcontra
      have := congrArg Fin.val hcontra
      rw [idx_val, idx_val, step_p, and15_eq] at this
      have hj0 : j.val ≠ 0 := fun h => h0 (Fin.ext h)
      omega
    show Function.update g.state (idx ((g.p + 1) &&& 15)) _ (idx (j.val + (step g).p)) = _
    rw [Function.update_noteq hne]
    apply congrArg
    apply idx_congr
    rw [step_p]
    have hval : ((j + 1 : Fin 16)).val = (j.val + 1) % 16 := by
      rw [Fin.add_def]
      rfl
    rw [hval]
    omega

theorem stepT_linear (a b : Fin 16 → ℕ) :
    stepT (fun j => a j ^^^ b j) = fun j => stepT a j ^^^ stepT b j := by
  funext j
  by_cases h0 : j = 0
  · subst h0
    simp [stepT, nextWord_linear]
  · simp [stepT, if_neg h0]

theorem stepT_zero : stepT (fun _ => 0) = fun _ => 0 := by
  funext j
  by_cases h0 : j = 0 <;> simp [stepT, h0, nextWord_zero]

theorem fold_fst (g : XGen) (t0 : Fin 16 → ℕ) (k : ℕ) :
    ((List.range k).foldl jumpStep (g, t0)).1 = step^[k] g := by
  induction k with
  | zero => rfl
  | succ k ih =>
    rw [List.range_succ, List.foldl_append, Function.iterate_succ_apply']
    simp only [List.foldl_cons, List.foldl_nil, jumpStep]
    rw [ih]

theorem fold_snd (g : XGen) (k : ℕ) :
    ((List.range k).foldl jumpStep (g, fun _ => 0)).2 = tAcc g k := by
  induction k with
  | zero => rfl
  | succ k ih =>
    rw [List.range_succ, List.foldl_append]
    simp only [List.foldl_cons, List.foldl_nil, jumpStep, tAcc]
    rw [ih, fold_fst]
    rfl

theorem aligned_iterate (g : XGen) (k : ℕ) :
    alignedSt (step^[k] g) = stepT^[k] (alignedSt g) := by
  induction k with
  | zero => rfl
  | succ k ih =>
    rw [Function.iterate_succ_apply', Function.iterate_succ_apply', aligned_step, ih]

theorem tAcc_step (g : XGen) (k : ℕ) : tAcc (step g) k = stepT (tAcc g k) := by
  induction k with
  | zero =>
    show (fun _ => 0) = stepT (fun _ => 0)
    rw [stepT_zero]
  | succ k ih =>
    simp only [tAcc]
    by_cases hb : jumpBit k
    · simp only [if_pos hb]
      rw [ih, ← Function.iterate_succ_apply, Function.iterate_succ_apply', aligned_step]
      rw [← stepT_linear]
    · simp only [if_neg hb]
      exact ih

theorem iterate_p (g : XGen) (k : ℕ) (hk : 1 ≤ k) : (step^[k] g).p = (g.p + k) % 16 := by
  induction k with
  | zero => omega
  | succ k ih =>
    rcases Nat.eq_or_lt_of_le hk with h1 | h1
    · rw [← h1]
      simpa using step_p g
    · have hk1 : 1 ≤ k := by omega
      rw [Function.iterate_succ_apply', step_p, ih hk1]
      omega

theorem Jump_p (g : XGen) : (Jump g).p = (g.p + 1024) % 16 := by
  simp only [Jump]
  rw [fold_fst]
  exact iterate_p g (16 * 64) (by norm_num)

theorem aligned_Jump (g : XGen) : alignedSt (Jump g) = tAcc g (16 * 64) := by
  funext j
  have hj := j.isLt
  show (Jump g).state (idx (j.val + (Jump g).p)) = _
  have hp : (Jump g).p = (g.p + 1024) % 16 := Jump_p g
  simp only [Jump]
  rw [fold_fst, fold_snd]
  have hpf : (step^[16 * 64] g).p = (g.p + 1024) % 16 := iterate_p g (16 * 64) (by norm_num)
  have harg : subIdx (idx (j.val + (step^[16 * 64] g).p)) (step^[16 * 64] g).p = j := by
    apply Fin.ext
    simp only [subIdx, idx_val, hpf]
    omega
  calc tAcc g (16 * 64) (subIdx (idx (j.val + (step^[16 * 64] g).p)) (step^[16 * 64] g).p)
      = tAcc g (16 * 64) j := by rw [harg]

theorem recover_state (g : XGen) (i : Fin 16) :
    g.state i = alignedSt g (subIdx i g.p) := by
  have hi := i.isLt
  show g.state i = g.state (idx ((subIdx i g.p).val + g.p))
  congr 1
  apply Fin.ext
  simp only [idx_val, subIdx]
  omega

theorem eq_of_aligned {g1 g2 : XGen} (hp : g1.p = g2.p)
    (ha : alignedSt g1 = alignedSt g2) : g1 = g2 := by
  obtain ⟨s1, p1⟩ := g1
  obtain ⟨s2, p2⟩ := g2
  simp only at hp
  subst hp
  simp only [XGen.mk.injEq, and_true]
  funext i
  have h1 := recover_state ⟨s1, p1⟩ i
  have h2 := recover_state ⟨s2, p1⟩ i
  simp only at h1 h2
  rw [h1, h2, ha]

/-- C2: a single generator call followed by a Jump reaches the same state
as a Jump followed by a single call, from every starting state. -/
theorem jump_commutes_with_step (g : XGen) : Jump (step g) = step (Jump g) := by
  apply eq_of_aligned
  · rw [Jump_p, step_p, step_p, Jump_p]
    omega
  · rw [aligned_Jump, tAcc_step, aligned_step, aligned_Jump]

theorem readN_append (xs ys : List ℕ) : readN xs.length (xs ++ ys) = some (xs, ys) := by
  induction xs with
  | nil => rfl
  | cons x xs ih => simp [readN, ih]

theorem getD_ofFn (f : Fin 16 → ℕ) (i : Fin 16) : (List.ofFn f).getD i.val 0 = f i := by
  have hlen : i.val < (List.ofFn f).length := by rw [List.length_ofFn]; exact i.isLt
  rw [List.getD_eq_getElem (List.ofFn f) 0 hlen, List.getElem_ofFn]

/-- C3: serializing the full engine state with `WriteState_ToStream` and
re-seeding a fresh engine from exactly that text reproduces the engine
state in full (generator words, rotation `p`, `bitCache` and `cacheMask`),
so drawing any number of words from both engines yields identical
sequences.  The hypothesis `p ≤ 16` holds for every state the library can
produce (the parser itself never sets `p` beyond 16). -/
theorem write_seed_roundtrip (e : EngT) (oldBitCache : ℕ) (hp : e.p ≤ 16) :
    engineFromTokens oldBitCache (writeStateTokens e) = Except.ok e ∧
    ∀ k, Except.map (fun e2 => genWords k (toXGen e2))
        (engineFromTokens oldBitCache (writeStateTokens e))
      = Except.ok (genWords k (toXGen e)) := by
  obtain ⟨st, p, bc, cm⟩ := e
  have hread : readN 16 (writeStateTokens ⟨st, p, bc, cm⟩)
      = some (List.ofFn st, [16, p, bc, cm]) := by
    have h := readN_append (List.ofFn st) [16, p, bc, cm]
    rw [List.length_ofFn] at h
    exact h
  have hstate : (fun i : Fin 16 => (List.ofFn st).getD i.val 0) = st := by
    funext i
    exact getD_ofFn st i
  obtain ⟨L, hL⟩ : ∃ L, List.ofFn st = L := ⟨_, rfl⟩
  rw [hL] at hread hstate
  have hok : engineFromTokens oldBitCache (writeStateTokens ⟨st, p, bc, cm⟩)
      = Except.ok ⟨st, p, bc, cm⟩ := by
    simp only [engineFromTokens, genFromTokens, hread]
    have hple : ¬ (p > 16) := by simpa using hp
    simp only [List.getD, List.get?_eq_getElem?] at hstate
    simp [hple]
    exact hstate
  refine ⟨hok, ?_⟩
  intro k
  rw [hok]
  rfl

theorem write_seed_roundtrip_witness :
    engTW.p ≤ 16 ∧
    (engineFromTokens 0 (writeStateTokens engTW) = Except.ok engTW ∧
      ∀ k, Except.map (fun e2 => genWords k (toXGen e2))
          (engineFromTokens 0 (writeStateTokens engTW))
        = Except.ok (genWords k (toXGen engTW))) :=
  ⟨by norm_num [engTW], write_seed_roundtrip engTW 0 (by norm_num [engTW])⟩

/-- C4 (failing input): the parser accepts the state-string
`1 2 ... 16 16 16`, whose rotation index `p = 16` lies outside `[0,16)`:
no error is raised and the parsed rotation index is 16.  The source
comment at the same lines says `p` exists in `[0, 16)`, so the check
`word > state_size` (instead of `>=`) is an off-by-one slip. -/
theorem parser_accepts_p_eq_16 :
    (genFromTokens c4Tokens).isOk = true ∧
    Except.map (fun r => r.2.1) (genFromTokens c4Tokens) = Except.ok 16 := by
  exact ⟨rfl, rfl⟩

theorem randBool_mask (e : Eng) : (RandBool e).2.cacheMask = cacheStep e.cacheMask := by
  by_cases h : e.cacheMask = replenishBitCache <;> simp [RandBool, cacheStep, h]

theorem randBool_ptr (e : Eng) :
    (RandBool e).2.ptr = e.ptr + (if e.cacheMask = replenishBitCache then 1 else 0) := by
  by_cases h : e.cacheMask = replenishBitCache <;> simp [RandBool, h]

theorem randBoolN_ptr (n : ℕ) :
    ∀ e : Eng, (randBoolN n e).ptr = e.ptr + refillCount n e.cacheMask := by
  induction n with
  | zero => intro e; simp [randBoolN, refillCount]
  | succ n ih =>
    intro e
    show (randBoolN n (RandBool e).2).ptr = _
    rw [ih, randBool_ptr, randBool_mask]
    simp only [refillCount]
    omega

theorem randBoolN_mask (n : ℕ) :
    ∀ e : Eng, (randBoolN n e).cacheMask = cacheStep^[n] e.cacheMask := by
  induction n with
  | zero => intro e; rfl
  | succ n ih =>
    intro e
    show (randBoolN n (RandBool e).2).cacheMask = _
    rw [ih, randBool_mask, Function.iterate_succ_apply]

theorem cache_period :
    refillCount (numBitsPRNG - badBits) replenishBitCache = 1 ∧
    cacheStep^[numBitsPRNG - badBits] replenishBitCache = replenishBitCache := by
  decide

theorem cache_period_mask (k : ℕ) :
    cacheStep^[(numBitsPRNG - badBits) * k] replenishBitCache = replenishBitCache := by
  induction k with
  | zero => rfl
  | succ k ih =>
    have h : (numBitsPRNG - badBits) * (k + 1)
        = (numBitsPRNG - badBits) * k + (numBitsPRNG - badBits) := by ring
    rw [h, Function.iterate_add_apply, cache_period.2, ih]

theorem refillCount_add (a b m : ℕ) :
    refillCount (a + b) m = refillCount a m + refillCount b (cacheStep^[a] m) := by
  induction a generalizing m with
  | zero => simp [refillCount]
  | succ a ih =>
    have h : a + 1 + b = (a + b) + 1 := by omega
    rw [h]
    show (if m = replenishBitCache then 1 else 0) + refillCount (a + b) (cacheStep m) = _
    rw [ih]
    show _ = (if m = replenishBitCache then 1 else 0) + refillCount a (cacheStep m)
        + refillCount b (cacheStep^[a + 1] m)
    rw [Function.iterate_succ_apply]
    omega

theorem cache_period_count (k : ℕ) :
    refillCount ((numBitsPRNG - badBits) * k) replenishBitCache = k := by
  induction k with
  | zero => rfl
  | succ k ih =>
    have h : (numBitsPRNG - badBits) * (k + 1)
        = (numBitsPRNG - badBits) * k + (numBitsPRNG - badBits) := by ring
    rw [h, refillCount_add, ih, cache_period_mask, cache_period.1]

/-- C5 (amended): starting from an empty bit cache, each block of
`numBitsPRNG - badBits = 62` consecutive `RandBool()` calls consumes
exactly one fresh generator word (not one per `numBitsMantissa = 53`
calls as the claim states, and certainly not one word per call). -/
theorem randBool_word_consumption (e : Eng) (h : e.cacheMask = replenishBitCache) :
    ∀ k, (randBoolN ((numBitsPRNG - badBits) * k) e).ptr = e.ptr + k ∧
      (randBoolN ((numBitsPRNG - badBits) * k) e).cacheMask = replenishBitCache := by
  intro k
  rw [randBoolN_ptr, randBoolN_mask, h, cache_period_count, cache_period_mask]
  exact ⟨rfl, rfl⟩

theorem randBool_word_consumption_witness :
    engEmptyCache.cacheMask = replenishBitCache ∧
    ((randBoolN ((numBitsPRNG - badBits) * 1) engEmptyCache).ptr = engEmptyCache.ptr + 1 ∧
      (randBoolN ((numBitsPRNG - badBits) * 1) engEmptyCache).cacheMask = replenishBitCache) :=
  ⟨rfl, randBool_word_consumption engEmptyCache rfl 1⟩

set_option maxRecDepth 8000 in
/-- C5 (counterexample): from an empty cache, the seventh block of
`numBitsMantissa = 53` consecutive `RandBool()` calls (calls 319 to 371)
consumes zero generator words, not exactly one: after 318 calls and after
371 calls the engine has drawn the same 6 words. -/
theorem randBool_53_block_draws_no_word :
    (randBoolN (numBitsMantissa * 7) engEmptyCache).ptr = 6 ∧
    (randBoolN (numBitsMantissa * 6) engEmptyCache).ptr = 6 := by
  rw [randBoolN_ptr, randBoolN_ptr]
  exact ⟨by decide, by decide⟩

/-- C8: `ApplyRandomSign(x)` flips the coin exactly once (its engine
effect is exactly one `RandBool` call), returns `-x` when the coin is
true and `x` unchanged when it is false, and always preserves the
magnitude `|x|`. -/
theorem applyRandomSign_spec (e : Eng) (victim : ℚ) :
    (ApplyRandomSign e victim).1 = (if (RandBool e).1 then -victim else victim) ∧
    (ApplyRandomSign e victim).2 = (RandBool e).2 ∧
    |(ApplyRandomSign e victim).1| = |victim| := by
  refine ⟨rfl, rfl, ?_⟩
  show |if (RandBool e).1 then -victim else victim| = |victim|
  by_cases h : (RandBool e).1 <;> simp [h]

/-- C9: with an empty per-sampler cache, the first single-value call
generates one pair, returns its first component and caches the second;
the immediately following single-value call returns the cached value and
leaves the engine state completely untouched. -/
theorem standardNormal_pair_caching (genTwo : Eng → (ℚ × ℚ) × Eng)
    (d : NormalState) (e : Eng) (h : d.valueCached = false) :
    (standardNormalCall genTwo d e).1 = (genTwo e).1.1 ∧
    (standardNormalCall genTwo d e).2.2 = (genTwo e).2 ∧
    (standardNormalCall genTwo (standardNormalCall genTwo d e).2.1
        (standardNormalCall genTwo d e).2.2).1 = (genTwo e).1.2 ∧
    (standardNormalCall genTwo (standardNormalCall genTwo d e).2.1
        (standardNormalCall genTwo d e).2.2).2.2 = (standardNormalCall genTwo d e).2.2 ∧
    (standardNormalCall genTwo (standardNormalCall genTwo d e).2.1
        (standardNormalCall genTwo d e).2.2).2.1.valueCached = false := by
  simp [standardNormalCall, h]

theorem minEntropy_eq : minEntropy = 2 ^ 54 := by decide

theorem rnd53aux_lower (n e : ℕ) : n / 2 ^ e * 2 ^ e ≤ rnd53aux n e := by
  rw [rnd53aux]
  split_ifs <;> exact Nat.mul_le_mul_right _ (by omega)

theorem rnd53aux_upper (n e : ℕ) : rnd53aux n e ≤ (n / 2 ^ e + 1) * 2 ^ e := by
  rw [rnd53aux]
  split_ifs <;> exact Nat.mul_le_mul_right _ (by omega)

theorem rnd53_pos {n : ℕ} (hn : 0 < n) : 0 < rnd53 n := by
  rw [rnd53]
  by_cases hsmall : n < 2 ^ numBitsMantissa
  · rwa [if_pos hsmall]
  · rw [if_neg hsmall]
    have hlog : 2 ^ (n.log2 - (numBitsMantissa - 1)) ≤ n := by
      calc 2 ^ (n.log2 - (numBitsMantissa - 1)) ≤ 2 ^ n.log2 :=
            Nat.pow_le_pow_right (by norm_num) (by omega)
        _ ≤ n := Nat.log2_self_le (by omega)
    have hq : 1 ≤ n / 2 ^ (n.log2 - (numBitsMantissa - 1)) :=
      (Nat.one_le_div_iff (by positivity)).mpr hlog
    calc 0 < n / 2 ^ (n.log2 - (numBitsMantissa - 1)) * 2 ^ (n.log2 - (numBitsMantissa - 1)) := by
          positivity
      _ ≤ rnd53aux n (n.log2 - (numBitsMantissa - 1)) := rnd53aux_lower n _

theorem rnd53_le {n b : ℕ} (hb : numBitsMantissa ≤ b) (hn : n < 2 ^ b) : rnd53 n ≤ 2 ^ b := by
  rw [rnd53]
  by_cases hsmall : n < 2 ^ numBitsMantissa
  · rw [if_pos hsmall]; omega
  · rw [if_neg hsmall]
    have hn0 : n ≠ 0 := by
      intro h0
      rw [h0] at hsmall
      exact hsmall (by positivity)
    have hle : n.log2 - (numBitsMantissa - 1) ≤ b := by
      have h1 : n.log2 < b := (Nat.log2_lt hn0).mpr hn
      omega
    have hq : n / 2 ^ (n.log2 - (numBitsMantissa - 1)) + 1
        ≤ 2 ^ (b - (n.log2 - (numBitsMantissa - 1))) := by
      have hlt : n / 2 ^ (n.log2 - (numBitsMantissa - 1))
          < 2 ^ (b - (n.log2 - (numBitsMantissa - 1))) := by
        rw [Nat.div_lt_iff_lt_mul (by positivity)]
        calc n < 2 ^ b := hn
          _ = 2 ^ (b - (n.log2 - (numBitsMantissa - 1)))
              * 2 ^ (n.log2 - (numBitsMantissa - 1)) := by
            rw [← pow_add]
            congr 1
            omega
      omega
    calc rnd53aux n (n.log2 - (numBitsMantissa - 1))
        ≤ (n / 2 ^ (n.log2 - (numBitsMantissa - 1)) + 1)
            * 2 ^ (n.log2 - (numBitsMantissa - 1)) := rnd53aux_upper n _
      _ ≤ 2 ^ (b - (n.log2 - (numBitsMantissa - 1)))
            * 2 ^ (n.log2 - (numBitsMantissa - 1)) := Nat.mul_le_mul_right _ hq
      _ = 2 ^ b := by
        rw [← pow_add]
        congr 1
        omega

theorem shiftLoop_lt (fuel : ℕ) : ∀ r : ℕ, r < W → (shiftLoop fuel r).1 < W := by
  induction fuel with
  | zero => intro r hr; exact hr
  | succ fuel ih =>
    intro r hr
    rw [shiftLoop]
    by_cases h : r < minEntropy
    · rw [if_pos h]
      exact ih (r <<< 1) (by rw [Nat.shiftLeft_eq, minEntropy_eq] at *; simp [W] at *; omega)
    · rw [if_neg h]
      exact hr

theorem shr_lt {x : ℕ} (hx : x < W) (n : ℕ) : x >>> n < W := by
  calc x >>> n ≤ x := by rw [Nat.shiftRight_eq_div_pow]; exact Nat.div_le_self _ _
    _ < W := hx

theorem or_one_pos (x : ℕ) : 0 < x ||| 1 := by
  rcases Nat.eq_zero_or_pos (x ||| 1) with h | h
  · have htb := congrArg (fun m => Nat.testBit m 0) h
    simp [Nat.testBit_or] at htb
  · exact h

theorem scaleToU_pos : 0 < scaleToU_uneven := by
  rw [scaleToU_uneven]
  positivity

theorem scaleToU_le_one : scaleToU_uneven ≤ 1 := by
  rw [scaleToU_uneven, numBitsPRNG]
  rw [inv_le_one_iff₀]
  right
  norm_num

theorem U_uneven_TopUp_bounds (ws : ℕ → ℕ) (hw : ∀ i, ws i < W)
    (h : ∃ i, 0 < i ∧ ws i ≠ 0) :
    0 < U_uneven_TopUp ws h ∧ U_uneven_TopUp ws h ≤ 2 ^ 64 := by
  have hW : W = 2 ^ 64 := rfl
  have hmant : ∀ a b c : ℕ, a < W → ((a ||| ws b >>> c) ||| 1) < 2 ^ 64 := by
    intro a b c ha
    have h1 : a < 2 ^ 64 := hW ▸ ha
    have h2 : ws b >>> c < 2 ^ 64 := hW ▸ shr_lt (hw b) c
    have h3 : (1 : ℕ) < 2 ^ 64 := by norm_num
    exact Nat.or_lt_two_pow (Nat.or_lt_two_pow h1 h2) h3
  have key : ∀ (m : ℕ) (d : ℚ), m < 2 ^ 64 → 0 < m → 0 < d → d ≤ 1 →
      0 < (rnd53 m : ℚ) * d ∧ (rnd53 m : ℚ) * d ≤ 2 ^ 64 := by
    intro m d hm hm0 hd0 hd1
    have hr0 : 0 < rnd53 m := rnd53_pos hm0
    have hrle : rnd53 m ≤ 2 ^ 64 := rnd53_le (by rw [numBitsMantissa]; omega) hm
    constructor
    · have : (0 : ℚ) < (rnd53 m : ℚ) := by exact_mod_cast hr0
      positivity
    · calc (rnd53 m : ℚ) * d ≤ (rnd53 m : ℚ) * 1 := by
            apply mul_le_mul_of_nonneg_left hd1
            positivity
        _ = (rnd53 m : ℚ) := by ring
        _ ≤ ((2 ^ 64 : ℕ) : ℚ) := by exact_mod_cast hrle
        _ = 2 ^ 64 := by push_cast; ring
  rw [U_uneven_TopUp]
  by_cases hz : (ws 0 <<< 1) % W = 0
  · rw [if_pos hz]
    apply key
    · exact hmant _ _ _ (shiftLoop_lt numBitsPRNG _ (hw (Nat.find h)))
    · exact or_one_pos _
    · have := scaleToU_pos
      positivity
    · have h1 : scaleToU_uneven ^ Nat.find h ≤ 1 :=
        pow_le_one₀ (le_of_lt scaleToU_pos) scaleToU_le_one
      have h2 : ((2 : ℚ)⁻¹) ^ (shiftLoop numBitsPRNG (ws (Nat.find h))).2 ≤ 1 :=
        pow_le_one₀ (by norm_num) (by norm_num)
      have h3 : (0 : ℚ) ≤ scaleToU_uneven ^ Nat.find h := by
        have := scaleToU_pos
        positivity
      calc scaleToU_uneven ^ Nat.find h * ((2 : ℚ)⁻¹) ^ _
          ≤ scaleToU_uneven ^ Nat.find h * 1 := mul_le_mul_of_nonneg_left h2 h3
        _ = scaleToU_uneven ^ Nat.find h := by ring
        _ ≤ 1 := h1
  · rw [if_neg hz]
    apply key
    · exact hmant _ _ _ (shiftLoop_lt numBitsPRNG _ (Nat.mod_lt _ (by rw [hW]; norm_num)))
    · exact or_one_pos _
    · positivity
    · exact pow_le_one₀ (by norm_num) (by norm_num)

/-- C1: the uneven quasiuniform draw always lands in the half-open
interval `(0, 1]`: it is strictly positive (never exactly 0) and at most
1.  `ws` is the output stream of the underlying generator; the
hypothesis that some later word is nonzero is exactly the condition
under which the top-up redraw loop terminates, and it holds for every
non-all-zero generator state. -/
theorem U_uneven_in_unit_interval (ws : ℕ → ℕ) (hw : ∀ i, ws i < W)
    (h : ∃ i, 0 < i ∧ ws i ≠ 0) :
    0 < U_uneven ws h ∧ U_uneven ws h ≤ 1 := by
  have hcap : ∀ t : ℚ, 0 < t → t ≤ 2 ^ 64 → 0 < scaleToU_uneven * t ∧ scaleToU_uneven * t ≤ 1 := by
    intro t ht0 ht1
    have hs := scaleToU_pos
    constructor
    · positivity
    · have hle : scaleToU_uneven * t ≤ scaleToU_uneven * 2 ^ 64 :=
        mul_le_mul_of_nonneg_left ht1 (le_of_lt hs)
      calc scaleToU_uneven * t ≤ scaleToU_uneven * 2 ^ 64 := hle
        _ = 1 := by
          rw [scaleToU_uneven, numBitsPRNG]
          norm_num
  rw [U_uneven]
  by_cases h0 : ws 0 < minEntropy
  · rw [if_pos h0]
    obtain ⟨ht0, ht1⟩ := U_uneven_TopUp_bounds ws hw h
    exact hcap _ ht0 ht1
  · rw [if_neg h0]
    have hm : ws 0 ||| 1 < 2 ^ 64 := by
      have h1 : ws 0 < 2 ^ 64 := hw 0
      exact Nat.or_lt_two_pow h1 (by norm_num)
    have hr0 : 0 < rnd53 (ws 0 ||| 1) := rnd53_pos (or_one_pos _)
    have hrle : rnd53 (ws 0 ||| 1) ≤ 2 ^ 64 := rnd53_le (by rw [numBitsMantissa]; omega) hm
    apply hcap
    · exact_mod_cast hr0
    · calc ((rnd53 (ws 0 ||| 1) : ℕ) : ℚ) ≤ ((2 ^ 64 : ℕ) : ℚ) := by exact_mod_cast hrle
        _ = 2 ^ 64 := by push_cast; ring

theorem wsW_nonzero : ∃ i, 0 < i ∧ wsW i ≠ 0 := ⟨1, Nat.one_pos, by norm_num [wsW]⟩

theorem U_uneven_in_unit_interval_witness :
    0 < U_uneven wsW wsW_nonzero ∧ U_uneven wsW wsW_nonzero ≤ 1 :=
  U_uneven_in_unit_interval wsW (fun i => by norm_num [wsW, W]) wsW_nonzero

/-- C6 (counterexample): at the exact-boundary hit `x = 3/5`, `y = 4/5`
(so `s = 1`) with auxiliary draw `aux = 0`, the auxiliary draw times 3 is
less than 2, yet the code rejects the pair — the claim's "rejected unless
the auxiliary draw times 3 is less than 2" predicts acceptance here. -/
theorem polar_boundary_counterexample :
    (3 / 5 : ℚ) * (3 / 5) + (4 / 5) * (4 / 5) = 1 ∧ (0 : ℚ) * 3 < 2 ∧
    polarAccept (3 / 5) (4 / 5) 0 = false := by
  refine ⟨by norm_num, by norm_num, ?_⟩
  have hbody : polarBody (3 / 5) (4 / 5) 0 = 2 := by
    rw [polarBody]
    exact if_pos ⟨by norm_num, by norm_num⟩
  rw [polarAccept, hbody]
  norm_num

/-- C6 (amended): in the Marsaglia-polar loop, an exact-boundary hit
`s = x^2 + y^2 = 1` is rejected exactly when the auxiliary draw times 3
is less than 2 (so it is accepted only when `aux*3 >= 2`, i.e. for 1/3
of a uniform auxiliary draw), and every pair with `s > 1` is rejected
and redrawn. -/
theorem polar_boundary_policy (x y aux : ℚ) :
    (x * x + y * y = 1 → (polarAccept x y aux = true ↔ ¬ aux * 3 < 2)) ∧
    (1 < x * x + y * y → polarAccept x y aux = false) := by
  constructor
  · intro h1
    by_cases haux : aux * 3 < 2
    · have hbody : polarBody x y aux = 2 := by
        rw [polarBody]
        exact if_pos ⟨h1, haux⟩
      rw [polarAccept, hbody]
      simp [haux]
    · have hbody : polarBody x y aux = 1 := by
        rw [polarBody, if_neg]
        · exact h1
        · rintro ⟨-, hc⟩
          exact haux hc
      rw [polarAccept, hbody]
      simp [haux]
  · intro hgt
    have hbody : polarBody x y aux = x * x + y * y := by
      rw [polarBody, if_neg]
      rintro ⟨hc, -⟩
      rw [hc] at hgt
      exact lt_irrefl 1 hgt
    rw [polarAccept, hbody]
    simp [hgt]

theorem polar_boundary_policy_witness :
    (3 / 5 : ℚ) * (3 / 5) + (4 / 5) * (4 / 5) = 1 ∧
    polarAccept (3 / 5) (4 / 5) 1 = true :=
  ⟨by norm_num,
    ((polar_boundary_policy (3 / 5) (4 / 5) 1).1 (by norm_num)).mpr (by norm_num)⟩

/-- C7: constructing `pareto(xMin = -1, alpha = 2)` raises the domain
error, but constructing `weibull(lambda = 1, k = 0)` does not: the
initializer computes `kRecip = 1/0 = +inf`, the check `kRecip <= 0`
fails, and the object is constructed with `k = 0` — contradicting both
the claim and the header's own documentation that a non-positive shape
throws. -/
theorem ctor_checks_at_claimed_inputs :
    pareto_throws (-1) 2 = true ∧ weibull_throws 1 0 = false := by
  constructor
  · rw [pareto_throws]
    norm_num
  · rw [weibull_throws]
    norm_num

/-- C10: besides rejecting `max <= min`, the `uniform_integer`
constructor also raises a domain error exactly when the requested spread
`max - min` exceeds the bit-reduced generator range
`biggestRand = 2^62 - 1`, so not every `min < max` pair is accepted. -/
theorem uniform_integer_spread_check (mn mx : ℤ)
    (h1 : -2 ^ 63 ≤ mn) (h2 : mn < mx) (h3 : mx < 2 ^ 63) :
    uniform_integer_throws mn mx = true ↔ (2 ^ 62 - 1 : ℤ) < mx - mn := by
  have hspread : (uiSpread mn mx : ℤ) = mx - mn := by
    rw [uiSpread, Int.toNat_of_nonneg (Int.emod_nonneg _ (by norm_num))]
    exact Int.emod_eq_of_lt (by omega) (by omega)
  have hbig : biggestRand = 2 ^ 62 - 1 := by
    rw [biggestRand, badBits, Nat.shiftRight_eq_div_pow]
    norm_num
  rw [uniform_integer_throws, hbig]
  simp only [Bool.or_eq_true, decide_eq_true_eq]
  omega

theorem uniform_integer_spread_check_witness :
    uniform_integer_throws 0 (2 ^ 62) = true ↔ (2 ^ 62 - 1 : ℤ) < 2 ^ 62 - 0 :=
  uniform_integer_spread_check 0 (2 ^ 62) (by norm_num) (by norm_num) (by norm_num)

theorem standardNormal_pair_caching_witness :
    (⟨0, false⟩ : NormalState).valueCached = false ∧
    ((standardNormalCall genTwoW ⟨0, false⟩ engEmptyCache).1 = (genTwoW engEmptyCache).1.1 ∧
      (standardNormalCall genTwoW ⟨0, false⟩ engEmptyCache).2.2 = (genTwoW engEmptyCache).2 ∧
      (standardNormalCall genTwoW (standardNormalCall genTwoW ⟨0, false⟩ engEmptyCache).2.1
          (standardNormalCall genTwoW ⟨0, false⟩ engEmptyCache).2.2).1
        = (genTwoW engEmptyCache).1.2 ∧
      (standardNormalCall genTwoW (standardNormalCall genTwoW ⟨0, false⟩ engEmptyCache).2.1
          (standardNormalCall genTwoW ⟨0, false⟩ engEmptyCache).2.2).2.2
        = (standardNormalCall genTwoW ⟨0, false⟩ engEmptyCache).2.2 ∧
      (standardNormalCall genTwoW (standardNormalCall genTwoW ⟨0, false⟩ engEmptyCache).2.1
          (standardNormalCall genTwoW ⟨0, false⟩ engEmptyCache).2.2).2.1.valueCached = false) :=
  ⟨rfl, standardNormal_pair_caching genTwoW ⟨0, false⟩ engEmptyCache rfl⟩

end PqRand
